import Mathlib

set_option maxRecDepth 8192

/-!
Verification of the chunking and two-stage summarization pipeline of
`src/main.py` (a WhatsApp study-assistant bot).  Python strings are embedded
as `List Char`; the OpenAI chat-completion call is modelled as an opaque
oracle `Str → Option Str` where `none` stands for the call raising an
exception (timeout, quota error, malformed response) and `some r` for a
successful completion whose message content is `r`.
-/

namespace StudyAssistant

/-- A Python string, embedded as a list of characters. -/
abbrev Str := List Char

/-- The two-character separator `"\n\n"` used for paragraph boundaries. -/
def nl2 : Str := ['\n', '\n']

/-- ASCII whitespace recognised by Python's `str.strip()`:
space, tab, newline, carriage return, vertical tab, form feed. -/
def isPySpace (c : Char) : Bool :=
  c = ' ' || c = '\t' || c = '\n' || c = '\r' || c = '\x0b' || c = '\x0c'

/-- Python `s.strip()`: remove leading and trailing whitespace. -/
def pyStrip (s : Str) : Str :=
  ((s.dropWhile isPySpace).reverse.dropWhile isPySpace).reverse

/-- `text.replace("\r", "\n")` (line 137 of `src/main.py`): every carriage
return becomes a newline. -/
def normalize (text : Str) : Str :=
  text.map (fun ch => if ch = '\r' then '\n' else ch)

/-- Worker for Python `text.split("\n\n")`: scan left to right, cutting at
each non-overlapping occurrence of two consecutive newlines.  `acc` holds the
current (reversed) piece. -/
def splitNNAux : Str → Str → List Str
  | acc, [] => [acc.reverse]
  | acc, [c] => [(c :: acc).reverse]
  | acc, c :: d :: rest =>
    if c = '\n' ∧ d = '\n' then acc.reverse :: splitNNAux [] rest
    else splitNNAux (c :: acc) (d :: rest)

/-- Python `text.split("\n\n")` (line 138 of `src/main.py`). -/
def splitNN (s : Str) : List Str := splitNNAux [] s

/-- The paragraph list of `chunk_text` (lines 137-138 of `src/main.py`):
normalize line endings, then split on blank-line boundaries. -/
def paragraphs (text : Str) : List Str := splitNN (normalize text)

/-- The greedy accumulation loop of `chunk_text` (lines 141-152 of
`src/main.py`).  State is the list of closed chunks plus the running buffer
`current`; a paragraph blank after stripping is skipped; a paragraph that
fits is appended (with a `"\n\n"` separator when the buffer is non-empty);
otherwise the buffer is closed and reseeded with its last `ov` characters. -/
def chunkLoop (cs ov : Nat) : List Str → List Str → Str → List Str × Str
  | [], chunks, current => (chunks, current)
  | p :: ps, chunks, current =>
    if pyStrip p = [] then chunkLoop cs ov ps chunks current
    else if current.length + p.length + 2 ≤ cs then
      chunkLoop cs ov ps chunks (if current = [] then p else current ++ nl2 ++ p)
    else
      chunkLoop cs ov ps (chunks ++ [current])
        (if 0 < ov then current.drop (current.length - ov) ++ nl2 ++ p else p)

/-- Lines 153-154 of `src/main.py`: after the loop, a trailing buffer that is
non-blank after stripping is closed as a final chunk. -/
def finishPass (pr : List Str × Str) : List Str :=
  if pyStrip pr.2 = [] then pr.1 else pr.1 ++ [pr.2]

/-- The chunk list of `chunk_text` before the overflow-splitting pass
(`chunks` at line 155 of `src/main.py`). -/
def chunksPass1 (text : Str) (cs ov : Nat) : List Str :=
  finishPass (chunkLoop cs ov (paragraphs text) [] [])

/-- Lines 156-161 of `src/main.py`: a chunk of length at most `cs` is kept
whole; an oversized chunk is re-split into fixed-width windows
`c[i:i+cs]` for `i in range(0, len(c), cs - ov)`.  (With `ov ≥ cs` Python's
`range` would raise; here the window list is empty, a case outside every
claim's `ov < cs` precondition.) -/
def splitWindows (cs ov : Nat) (c : Str) : List Str :=
  if c.length ≤ cs then [c]
  else (List.range' 0 ((c.length + (cs - ov) - 1) / (cs - ov)) (cs - ov)).map
    (fun i => (c.drop i).take cs)

/-- `chunk_text(text, chunk_size, overlap)` (lines 136-163 of
`src/main.py`). -/
def chunk_text (text : Str) (cs ov : Nat) : List Str :=
  (chunksPass1 text cs ov).flatMap (splitWindows cs ov)

/-- Line terminators recognised by Python's `str.splitlines()`. -/
def isLineBreak (c : Char) : Bool :=
  c = '\n' || c = '\r' || c = '\x0b' || c = '\x0c' || c = '\x1c' ||
  c = '\x1d' || c = '\x1e' || c = '\x85' || c = '\u2028' || c = '\u2029'

/-- Worker for Python `s.splitlines()`: `"\r\n"` counts as a single break,
any other terminator breaks on its own, and a trailing terminator does not
produce a final empty line. -/
def pySplitlinesAux : Str → Str → List Str
  | acc, [] => if acc = [] then [] else [acc.reverse]
  | acc, [c] => if isLineBreak c then [acc.reverse] else [(c :: acc).reverse]
  | acc, c :: d :: rest =>
    if c = '\r' ∧ d = '\n' then acc.reverse :: pySplitlinesAux [] rest
    else if isLineBreak c then acc.reverse :: pySplitlinesAux [] (d :: rest)
    else pySplitlinesAux (c :: acc) (d :: rest)

/-- Python `s.splitlines()`. -/
def pySplitlines (s : Str) : List Str := pySplitlinesAux [] s

/-- Python `sep.join(parts)`. -/
def joinSep (sep : Str) : List Str → Str
  | [] => []
  | [x] => x
  | x :: y :: xs => x ++ sep ++ joinSep sep (y :: xs)

/-- The always-failing completion oracle: every external call raises. -/
def failingCall : Str → Option Str := fun _ => none

/-- `extract_keypoints_from_chunk` (lines 166-189 of `src/main.py`).  The
OpenAI call is the oracle applied to the chunk content; on success the
response content is stripped (line 186), and on any exception the summary
degrades to the first 10 lines of the raw chunk joined by `"\n"`
(line 189). -/
def extract_keypoints_from_chunk (call : Str → Option Str) (chunk : Str) : Str :=
  match call chunk with
  | some r => pyStrip r
  | none => joinSep ['\n'] ((pySplitlines chunk).take 10)

/-- The per-chunk extraction loop of the orchestrator (lines 244-248 of
`src/main.py`): one summary per chunk, in index order. -/
def summarize_all (call : Str → Option Str) (chunks : List Str) : List Str :=
  chunks.map (extract_keypoints_from_chunk call)

/-- `synthesize_keypoints` (lines 191-215 of `src/main.py`).  The OpenAI
call is the oracle applied to the concatenated chunk-level key points; on
success the response content is stripped (line 212), and on any exception
the result degrades to `"\n".join(all_chunk_points[:10])` (line 215). -/
def synthesize_keypoints (call : Str → Option Str) (all_chunk_points : List Str) : Str :=
  match call (joinSep ['\n'] all_chunk_points) with
  | some r => pyStrip r
  | none => joinSep ['\n'] (all_chunk_points.take 10)

/-- The literal `"Chapter"`. -/
def chapterStr : Str := ['C', 'h', 'a', 'p', 't', 'e', 'r']

/-- The literal `"CHAPTER"`. -/
def chapterUp : Str := ['C', 'H', 'A', 'P', 'T', 'E', 'R']

/-- Line 263 of `src/main.py`: split the final text on `"\n\n"` and keep the
paragraphs that are non-blank after stripping. -/
def nonblankParas (s : Str) : List Str :=
  (splitNN s).filter (fun p => !(pyStrip p).isEmpty)

/-- The greedy recombination loop of lines 265-272 of `src/main.py`:
accumulate paragraphs into parts of length at most 1800, closing the current
part (without any overlap seed) when the next paragraph would overflow. -/
def greedyLoop : List Str → List Str → Str → List Str × Str
  | [], out, cur => (out, cur)
  | p :: ps, out, cur =>
    if cur.length + p.length + 2 ≤ 1800 then
      greedyLoop ps out (if cur = [] then p else cur ++ nl2 ++ p)
    else greedyLoop ps (out ++ [cur]) p

/-- Lines 273-274 of `src/main.py`: a non-empty trailing buffer is closed as
a final part (`if cur:` tests plain non-emptiness, not blankness). -/
def finishParts (pr : List Str × Str) : List Str :=
  if pr.2 = [] then pr.1 else pr.1 ++ [pr.2]

/-- The paragraph-recombination branch of the delivery splitter
(lines 263-274 of `src/main.py`). -/
def recombineParts (ps : List Str) : List Str :=
  finishParts (greedyLoop ps [] [])

/-- `send_whatsapp_message`'s own slicing rule (lines 218-228 of
`src/main.py`): the text is sent in fixed slices of 3000 characters; an
empty text produces no message at all. -/
def sendSlices (text : Str) : List Str :=
  if h : text = [] then [] else text.take 3000 :: sendSlices (text.drop 3000)
termination_by text.length
decreasing_by
  simp only [List.length_drop]
  have : text.length ≠ 0 := fun hn => h (List.eq_nil_of_length_eq_zero hn)
  omega

/-- The Delivery Splitter (lines 254-280 of `src/main.py`): a result shorter
than 2000 characters is one part; otherwise, if it contains `"Chapter"`,
`"CHAPTER"` or a double newline, its non-blank paragraphs are greedily
recombined into parts of at most 1800 characters; otherwise the whole result
is handed to the transport, which slices it at 3000 characters. -/
def split_for_delivery (final : Str) : List Str :=
  if final.length < 2000 then [final]
  else if chapterStr <:+: final ∨ chapterUp <:+: final ∨ nl2 <:+: final then
    recombineParts (nonblankParas final)
  else sendSlices final

/-- The stages of one pipeline run that the orchestrator can reach after a
successful extraction. -/
inductive PipelineStage
  | segmented
  | summarized
  | synthesized
  | delivered
deriving DecidableEq

/-- Outcome of one run: either the "no extractable text" error notice of
line 236 of `src/main.py` (the `ExtractionEmpty` / `Errored` outcome), or the
delivered parts. -/
inductive PipelineResult
  | noText
  | sent (parts : List Str)
deriving DecidableEq

/-- `process_document_link_and_send` after extraction (lines 231-280 of
`src/main.py`), returning the stages that were run together with the
outcome.  Text that is empty or whose stripped length is below 50 transitions
directly to the error notice without invoking `chunk_text` or any later
stage (lines 235-237); otherwise the pipeline runs
Segmenter → per-chunk extraction → synthesis → delivery splitting with the
hard-coded `chunk_size=3000, overlap=500`. -/
def process_document_link_and_send (call : Str → Option Str) (text : Str) :
    List PipelineStage × PipelineResult :=
  if text.length = 0 ∨ (pyStrip text).length < 50 then ([], .noText)
  else
    let chunks := chunk_text text 3000 500
    let points := summarize_all call chunks
    let final := synthesize_keypoints call points
    ([.segmented, .summarized, .synthesized, .delivered],
      .sent (split_for_delivery final))

/-- Demonstration input: two paragraphs `"ab"` and `"cdefgh"`. -/
def demoText : Str := ['a', 'b', '\n', '\n', 'c', 'd', 'e', 'f', 'g', 'h']

/-- Demonstration input for the fitting-paragraphs case: `"ab\n\ncd"`. -/
def demoFit : Str := ['a', 'b', '\n', '\n', 'c', 'd']

/-- The single-paragraph input `"abc"` exhibiting the empty-segment bug. -/
def cexC3 : Str := ['a', 'b', 'c']

/-- A synthesis result of length 2006: a 2000-character paragraph, then a
blank paragraph `" "`, then the paragraph `"b"`. -/
def cexFinal : Str :=
  List.replicate 2000 'a' ++ nl2 ++ [' '] ++ nl2 ++ ['b']

/-! ### Basic facts about the string helpers -/

theorem pyStrip_eq_nil_iff {s : Str} : pyStrip s = [] ↔ ∀ c ∈ s, isPySpace c = true := by
  unfold pyStrip
  constructor
  · intro h c hc
    rw [List.reverse_eq_nil_iff, List.dropWhile_eq_nil_iff] at h
    have hsplit := List.takeWhile_append_dropWhile (p := isPySpace) (l := s)
    rw [← hsplit] at hc
    rcases List.mem_append.mp hc with h1 | h2
    · exact List.mem_takeWhile_imp h1
    · exact h c (List.mem_reverse.mpr h2)
  · intro h
    have h1 : s.dropWhile isPySpace = [] := List.dropWhile_eq_nil_iff.mpr h
    simp [h1]

theorem pyStrip_ne_nil_of_mem {s : Str} {c : Char} (hc : c ∈ s)
    (hns : isPySpace c = false) : pyStrip s ≠ [] := by
  intro h
  have := pyStrip_eq_nil_iff.mp h c hc
  simp [hns] at this

theorem pyStrip_ne_nil_mono {x y : Str} (hxy : x <:+: y) (hx : pyStrip x ≠ []) :
    pyStrip y ≠ [] := by
  intro hy
  apply hx
  rw [pyStrip_eq_nil_iff] at hy ⊢
  intro c hc
  exact hy c (hxy.sublist.subset hc)

theorem pyStrip_ne_nil_append_left {x y : Str} (hx : pyStrip x ≠ []) :
    pyStrip (x ++ y) ≠ [] :=
  pyStrip_ne_nil_mono ⟨[], y, by simp⟩ hx

theorem pyStrip_ne_nil_append_right {x y : Str} (hy : pyStrip y ≠ []) :
    pyStrip (x ++ y) ≠ [] :=
  pyStrip_ne_nil_mono ⟨x, [], by simp⟩ hy

theorem ne_nil_of_pyStrip_ne_nil {x : Str} (hx : pyStrip x ≠ []) : x ≠ [] := by
  intro h; exact hx (by simp [h, pyStrip])

theorem pyStrip_length_le (s : Str) : (pyStrip s).length ≤ s.length := by
  have h1 := ((s.dropWhile isPySpace).reverse.dropWhile_suffix isPySpace).length_le
  have h2 := (s.dropWhile_suffix isPySpace).length_le
  simp only [List.length_reverse] at h1
  calc (pyStrip s).length
      = ((s.dropWhile isPySpace).reverse.dropWhile isPySpace).length := by
        simp [pyStrip]
    _ ≤ (s.dropWhile isPySpace).length := h1
    _ ≤ s.length := h2

theorem joinSep_cons (sep x : Str) {xs : List Str} (h : xs ≠ []) :
    joinSep sep (x :: xs) = x ++ sep ++ joinSep sep xs := by
  cases xs with
  | nil => exact absurd rfl h
  | cons y ys => rfl

theorem joinSep_merge (l : List Str) (a b : Str) (m : List Str) :
    joinSep nl2 (l ++ (a ++ nl2 ++ b) :: m) = joinSep nl2 (l ++ a :: b :: m) := by
  induction l with
  | nil =>
    cases m with
    | nil => rfl
    | cons c m' =>
      simp only [List.nil_append]
      rw [joinSep_cons _ _ (List.cons_ne_nil c m'),
        joinSep_cons _ _ (List.cons_ne_nil b (c :: m')),
        joinSep_cons _ _ (List.cons_ne_nil c m')]
      simp [List.append_assoc]
  | cons x l ih =>
    have h1 : l ++ (a ++ nl2 ++ b) :: m ≠ [] :=
      List.append_ne_nil_of_right_ne_nil _ (List.cons_ne_nil _ _)
    have h2 : l ++ a :: b :: m ≠ [] :=
      List.append_ne_nil_of_right_ne_nil _ (List.cons_ne_nil _ _)
    rw [List.cons_append, joinSep_cons _ _ h1, ih, List.cons_append,
      joinSep_cons _ _ h2]

/-! ### Facts about paragraph splitting and line-ending normalization -/

theorem splitNNAux_no_nl (l : Str) : ∀ acc : Str, (∀ c ∈ l, c ≠ '\n') →
    splitNNAux acc l = [acc.reverse ++ l] := by
  induction l with
  | nil => intro acc _; simp [splitNNAux]
  | cons c t ih =>
    intro acc h
    cases t with
    | nil => simp [splitNNAux]
    | cons d t' =>
      have hc : c ≠ '\n' := h c (by simp)
      rw [show splitNNAux acc (c :: d :: t')
          = if c = '\n' ∧ d = '\n' then acc.reverse :: splitNNAux [] t'
            else splitNNAux (c :: acc) (d :: t') from rfl,
        if_neg (fun hcd => hc hcd.1),
        ih (c :: acc) (fun x hx => h x (by simp [hx]))]
      simp

theorem splitNNAux_cut (l : Str) : ∀ acc t : Str, (∀ c ∈ l, c ≠ '\n') →
    splitNNAux acc (l ++ '\n' :: '\n' :: t)
      = (acc.reverse ++ l) :: splitNNAux [] t := by
  induction l with
  | nil =>
    intro acc t _
    rw [List.nil_append,
      show splitNNAux acc ('\n' :: '\n' :: t)
        = if ('\n' : Char) = '\n' ∧ ('\n' : Char) = '\n'
          then acc.reverse :: splitNNAux [] t
          else splitNNAux ('\n' :: acc) ('\n' :: t) from rfl,
      if_pos ⟨rfl, rfl⟩]
    simp
  | cons c l' ih =>
    intro acc t h
    have hc : c ≠ '\n' := h c (by simp)
    have hrest : ∀ x ∈ l', x ≠ '\n' := fun x hx => h x (by simp [hx])
    cases l' with
    | nil =>
      rw [List.cons_append, List.nil_append,
        show splitNNAux acc (c :: '\n' :: '\n' :: t)
          = if c = '\n' ∧ ('\n' : Char) = '\n'
            then acc.reverse :: splitNNAux [] ('\n' :: t)
            else splitNNAux (c :: acc) ('\n' :: '\n' :: t) from rfl,
        if_neg (fun hcd => hc hcd.1)]
      rw [show ('\n' :: '\n' :: t : Str) = [] ++ '\n' :: '\n' :: t from rfl,
        ih (c :: acc) t (by simp)]
      simp
    | cons d l'' =>
      rw [List.cons_append, List.cons_append,
        show splitNNAux acc (c :: d :: (l'' ++ '\n' :: '\n' :: t))
          = if c = '\n' ∧ d = '\n'
            then acc.reverse :: splitNNAux [] (l'' ++ '\n' :: '\n' :: t)
            else splitNNAux (c :: acc) (d :: (l'' ++ '\n' :: '\n' :: t)) from rfl,
        if_neg (fun hcd => hc hcd.1),
        show (d :: (l'' ++ '\n' :: '\n' :: t) : Str)
          = (d :: l'') ++ '\n' :: '\n' :: t from rfl,
        ih (c :: acc) t hrest]
      simp

theorem splitNN_no_nl {l : Str} (h : ∀ c ∈ l, c ≠ '\n') : splitNN l = [l] := by
  rw [splitNN, splitNNAux_no_nl l [] h]; rfl

theorem splitNN_cut {l : Str} (t : Str) (h : ∀ c ∈ l, c ≠ '\n') :
    splitNN (l ++ '\n' :: '\n' :: t) = l :: splitNN t := by
  rw [splitNN, splitNNAux_cut l [] t h]; rfl

theorem normalize_append (a b : Str) :
    normalize (a ++ b) = normalize a ++ normalize b := by
  simp [normalize]

theorem normalize_no_cr {l : Str} (h : ∀ c ∈ l, c ≠ '\r') : normalize l = l := by
  induction l with
  | nil => rfl
  | cons c t ih =>
    have hc : c ≠ '\r' := h c (by simp)
    simp only [normalize, List.map_cons, if_neg hc]
    rw [show (List.map (fun ch => if ch = '\r' then '\n' else ch) t : Str)
        = normalize t from rfl, ih (fun x hx => h x (by simp [hx]))]

/-! ### Facts about the greedy accumulation loop of `chunk_text` -/

theorem chunkLoop_cons (cs ov : Nat) (p : Str) (ps chunks : List Str) (current : Str) :
    chunkLoop cs ov (p :: ps) chunks current
      = if pyStrip p = [] then chunkLoop cs ov ps chunks current
        else if current.length + p.length + 2 ≤ cs then
          chunkLoop cs ov ps chunks (if current = [] then p else current ++ nl2 ++ p)
        else chunkLoop cs ov ps (chunks ++ [current])
          (if 0 < ov then current.drop (current.length - ov) ++ nl2 ++ p else p) := rfl

theorem chunkLoop_extends_chunks (cs ov : Nat) (ps : List Str) :
    ∀ chunks current, chunks <+: (chunkLoop cs ov ps chunks current).1 := by
  induction ps with
  | nil => intro chunks current; exact List.prefix_refl _
  | cons p ps ih =>
    intro chunks current
    rw [chunkLoop_cons]
    by_cases h1 : pyStrip p = []
    · simpa [h1] using ih chunks current
    · by_cases h2 : current.length + p.length + 2 ≤ cs
      · simpa [h1, h2] using ih chunks _
      · simp only [if_neg h1, if_neg h2]
        exact (List.prefix_append chunks [current]).trans (ih _ _)

theorem finishPass_subset (pr : List Str × Str) : pr.1 ⊆ finishPass pr := by
  unfold finishPass
  split
  · exact fun x hx => hx
  · exact fun x hx => List.mem_append.mpr (Or.inl hx)

theorem infix_ext {x y : Str} (z : Str) (h : x <:+: y) : x <:+: y ++ z :=
  h.trans (List.prefix_append y z).isInfix

theorem chunkLoop_keeps_infix (cs ov : Nat) (ps : List Str) :
    ∀ chunks current x, pyStrip x ≠ [] → x <:+: current →
      ∃ c ∈ finishPass (chunkLoop cs ov ps chunks current), x <:+: c := by
  induction ps with
  | nil =>
    intro chunks current x hx hxc
    refine ⟨current, ?_, hxc⟩
    have hcur : pyStrip current ≠ [] := pyStrip_ne_nil_mono hxc hx
    simp [chunkLoop, finishPass, hcur]
  | cons p ps ih =>
    intro chunks current x hx hxc
    rw [chunkLoop_cons]
    by_cases h1 : pyStrip p = []
    · rw [if_pos h1]; exact ih chunks current x hx hxc
    · rw [if_neg h1]
      by_cases h2 : current.length + p.length + 2 ≤ cs
      · rw [if_pos h2]
        have hcur : current ≠ [] := by
          intro hc
          subst hc
          have hx0 : x = [] := List.sublist_nil.mp hxc.sublist
          exact hx (by simp [hx0, pyStrip])
        rw [if_neg hcur]
        exact ih chunks _ x hx (infix_ext p (infix_ext nl2 hxc))
      · rw [if_neg h2]
        refine ⟨current, ?_, hxc⟩
        apply finishPass_subset
        apply (chunkLoop_extends_chunks cs ov ps (chunks ++ [current]) _).subset
        simp

theorem chunkLoop_para_covered (cs ov : Nat) (ps : List Str) :
    ∀ chunks current p, p ∈ ps → pyStrip p ≠ [] →
      ∃ c ∈ finishPass (chunkLoop cs ov ps chunks current), p <:+: c := by
  induction ps with
  | nil => intro _ _ _ h; exact absurd h (List.not_mem_nil _)
  | cons q ps ih =>
    intro chunks current p hp hps
    rw [chunkLoop_cons]
    rcases List.mem_cons.mp hp with rfl | hmem
    · rw [if_neg hps]
      by_cases h2 : current.length + p.length + 2 ≤ cs
      · rw [if_pos h2]
        apply chunkLoop_keeps_infix cs ov ps chunks _ p hps
        by_cases hcur : current = []
        · rw [if_pos hcur]
        · rw [if_neg hcur]
          exact (List.suffix_append (current ++ nl2) p).isInfix
      · rw [if_neg h2]
        apply chunkLoop_keeps_infix cs ov ps _ _ p hps
        by_cases hov : 0 < ov
        · rw [if_pos hov]
          exact (List.suffix_append (current.drop (current.length - ov) ++ nl2) p).isInfix
        · rw [if_neg hov]
    · by_cases h1 : pyStrip q = []
      · rw [if_pos h1]; exact ih chunks current p hmem hps
      · rw [if_neg h1]
        by_cases h2 : current.length + q.length + 2 ≤ cs
        · rw [if_pos h2]; exact ih chunks _ p hmem hps
        · rw [if_neg h2]; exact ih _ _ p hmem hps

theorem splitWindows_covers (cs ov : Nat) (hov : ov < cs) (ck : Str) :
    ∀ (m : Nat) (ch : Char), ck[m]? = some ch →
      ∃ s ∈ splitWindows cs ov ck, ∃ k : Nat, s[k]? = some ch := by
  intro m ch hm
  have hmlt : m < ck.length := (List.getElem?_eq_some_iff.mp hm).1
  unfold splitWindows
  by_cases hlen : ck.length ≤ cs
  · rw [if_pos hlen]; exact ⟨ck, by simp, m, hm⟩
  · rw [if_neg hlen]
    have hstep0 : 0 < cs - ov := by omega
    have hdm := Nat.div_add_mod m (cs - ov)
    have hmod := Nat.mod_lt m hstep0
    have h1 : (cs - ov) * (m / (cs - ov)) ≤ m := Nat.le.intro hdm
    have hqcnt : m / (cs - ov) < (ck.length + (cs - ov) - 1) / (cs - ov) := by
      rw [Nat.lt_iff_add_one_le, Nat.le_div_iff_mul_le hstep0]
      have hmul : (m / (cs - ov) + 1) * (cs - ov)
          = (cs - ov) * (m / (cs - ov)) + (cs - ov) := by ring
      omega
    refine ⟨(ck.drop ((cs - ov) * (m / (cs - ov)))).take cs,
      List.mem_map.mpr ⟨(cs - ov) * (m / (cs - ov)),
        List.mem_range'.mpr ⟨m / (cs - ov), hqcnt, by ring⟩, rfl⟩,
      m - (cs - ov) * (m / (cs - ov)), ?_⟩
    rw [List.getElem?_take, if_pos (by omega), List.getElem?_drop,
      show (cs - ov) * (m / (cs - ov)) + (m - (cs - ov) * (m / (cs - ov))) = m by omega]
    exact hm

theorem prefix_ext {x y : Str} (z : Str) (h : x <+: y) : x <+: y ++ z :=
  h.trans (List.prefix_append y z)

/-! ### Claims C1 and C2: coverage and length bound of the Segmenter -/

/-- C1: for every input text and every `chunk_size > overlap ≥ 0`, the
segments returned by `chunk_text`, read in order, cover all non-blank
paragraph content of the input: every paragraph that is non-blank after
stripping is contained in one of the greedily accumulated buffers, every
character occurrence of such a paragraph appears in at least one returned
segment, and the returned segment list is exactly the in-order concatenation
of the in-order window decompositions of the buffer list, so no content is
silently dropped and relative order is preserved. -/
theorem chunk_text_covers_paragraphs (text : Str) (cs ov : Nat) (hov : ov < cs) :
    (∀ p ∈ paragraphs text, pyStrip p ≠ [] →
        ∃ c ∈ chunksPass1 text cs ov, p <:+: c)
    ∧ (∀ p ∈ paragraphs text, pyStrip p ≠ [] → ∀ (m : Nat) (ch : Char),
        p[m]? = some ch →
        ∃ s ∈ chunk_text text cs ov, ∃ k : Nat, s[k]? = some ch)
    ∧ chunk_text text cs ov
        = (chunksPass1 text cs ov).flatMap (splitWindows cs ov) := by
  refine ⟨?_, ?_, rfl⟩
  · intro p hp hps
    exact chunkLoop_para_covered cs ov (paragraphs text) [] [] p hp hps
  · intro p hp hps m ch hm
    obtain ⟨ck, hck, u, v, hceq⟩ :
        ∃ ck ∈ chunksPass1 text cs ov, ∃ u v : Str, u ++ p ++ v = ck :=
      chunkLoop_para_covered cs ov (paragraphs text) [] [] p hp hps
    have hmp : m < p.length := (List.getElem?_eq_some_iff.mp hm).1
    have hidx : ck[u.length + m]? = some ch := by
      rw [← hceq, List.append_assoc,
        List.getElem?_append_right (by omega),
        show u.length + m - u.length = m by omega,
        List.getElem?_append_left hmp]
      exact hm
    obtain ⟨s, hsw, k, hk⟩ :=
      splitWindows_covers cs ov hov ck (u.length + m) ch hidx
    exact ⟨s, List.mem_flatMap.mpr ⟨ck, hck, hsw⟩, k, hk⟩

/-- Witness for `chunk_text_covers_paragraphs` at the concrete input
`demoText` with `chunk_size = 6`, `overlap = 1`. -/
theorem chunk_text_covers_paragraphs_w :
    (1 : Nat) < 6 ∧
    ((∀ p ∈ paragraphs demoText, pyStrip p ≠ [] →
        ∃ c ∈ chunksPass1 demoText 6 1, p <:+: c)
    ∧ (∀ p ∈ paragraphs demoText, pyStrip p ≠ [] → ∀ (m : Nat) (ch : Char),
        p[m]? = some ch →
        ∃ s ∈ chunk_text demoText 6 1, ∃ k : Nat, s[k]? = some ch)
    ∧ chunk_text demoText 6 1
        = (chunksPass1 demoText 6 1).flatMap (splitWindows 6 1)) :=
  ⟨by decide, chunk_text_covers_paragraphs demoText 6 1 (by decide)⟩

/-- C2: for every input text and every `chunk_size > overlap ≥ 0`, every
segment returned by `chunk_text` has length at most `chunk_size` after the
overflow-splitting pass. -/
theorem chunk_text_length_le (text : Str) (cs ov : Nat) (hov : ov < cs) :
    ∀ s ∈ chunk_text text cs ov, s.length ≤ cs := by
  intro s hs
  rcases List.mem_flatMap.mp hs with ⟨ck, _, hw⟩
  unfold splitWindows at hw
  by_cases hlen : ck.length ≤ cs
  · rw [if_pos hlen] at hw
    simp only [List.mem_singleton] at hw
    exact hw ▸ hlen
  · rw [if_neg hlen] at hw
    rcases List.mem_map.mp hw with ⟨i, _, rfl⟩
    rw [List.length_take]
    exact min_le_left _ _

/-- Witness for `chunk_text_length_le` at the concrete input `demoText`
with `chunk_size = 6`, `overlap = 1`. -/
theorem chunk_text_length_le_w :
    (1 : Nat) < 6 ∧ ∀ s ∈ chunk_text demoText 6 1, s.length ≤ 6 :=
  ⟨by decide, chunk_text_length_le demoText 6 1 (by decide)⟩

/-! ### Claim C3: non-blank segments (refuted, then amended) -/

/-- C3 counterexample: with `chunk_size = 2 > overlap = 0`, the single
non-blank paragraph `"abc"` overflows the empty buffer, so line 147 of
`src/main.py` appends the empty buffer as a chunk and `chunk_text` returns
the empty string as its first segment — which is empty after trimming. -/
theorem chunk_text_empty_segment_cex :
    (0 : Nat) < 2 ∧ [] ∈ chunk_text cexC3 2 0 ∧ pyStrip ([] : Str) = [] := by
  decide

theorem chunkLoop_fit_inv (cs ov : Nat) (ps : List Str) :
    ∀ chunks current,
      (∀ p ∈ ps, pyStrip p ≠ [] → ov + p.length + 2 ≤ cs) →
      (∀ ck ∈ chunks, pyStrip ck ≠ [] ∧ ck.length ≤ cs) →
      (current = [] ∨ pyStrip current ≠ []) →
      current.length ≤ cs →
      ∀ ck ∈ finishPass (chunkLoop cs ov ps chunks current),
        pyStrip ck ≠ [] ∧ ck.length ≤ cs := by
  induction ps with
  | nil =>
    intro chunks current _ hch hcur hlen ck hck
    simp only [chunkLoop] at hck
    unfold finishPass at hck
    by_cases hb : pyStrip current = []
    · rw [if_pos hb] at hck; exact hch ck hck
    · rw [if_neg hb] at hck
      rcases List.mem_append.mp hck with h | h
      · exact hch ck h
      · simp only [List.mem_singleton] at h
        subst h; exact ⟨hb, hlen⟩
  | cons p ps ih =>
    intro chunks current hfit hch hcur hlen
    rw [chunkLoop_cons]
    by_cases h1 : pyStrip p = []
    · rw [if_pos h1]
      exact ih chunks current (fun q hq => hfit q (by simp [hq])) hch hcur hlen
    · rw [if_neg h1]
      have hpfit : ov + p.length + 2 ≤ cs := hfit p (by simp) h1
      by_cases h2 : current.length + p.length + 2 ≤ cs
      · rw [if_pos h2]
        refine ih chunks _ (fun q hq => hfit q (by simp [hq])) hch ?_ ?_
        · by_cases hc0 : current = []
          · rw [if_pos hc0]; exact Or.inr h1
          · rw [if_neg hc0]
            exact Or.inr (pyStrip_ne_nil_append_right h1)
        · by_cases hc0 : current = []
          · rw [if_pos hc0]; omega
          · rw [if_neg hc0]
            simp only [List.length_append, nl2, List.length_cons,
              List.length_nil]
            omega
      · rw [if_neg h2]
        have hc0 : current ≠ [] := by
          intro h; subst h
          simp only [List.length_nil, Nat.zero_add] at h2
          omega
        have hcur' : pyStrip current ≠ [] := hcur.resolve_left hc0
        refine ih (chunks ++ [current]) _
          (fun q hq => hfit q (by simp [hq])) ?_ ?_ ?_
        · intro ck hck
          rcases List.mem_append.mp hck with h | h
          · exact hch ck h
          · simp only [List.mem_singleton] at h; subst h
            exact ⟨hcur', hlen⟩
        · by_cases hov : 0 < ov
          · rw [if_pos hov]; exact Or.inr (pyStrip_ne_nil_append_right h1)
          · rw [if_neg hov]; exact Or.inr h1
        · by_cases hov : 0 < ov
          · rw [if_pos hov]
            simp only [List.length_append, List.length_drop, nl2,
              List.length_cons, List.length_nil]
            omega
          · rw [if_neg hov]; omega

/-- C3 amended: the claim as stated is refuted by
`chunk_text_empty_segment_cex`; it holds under the additional proviso that
every non-blank paragraph fits in a freshly reseeded buffer, i.e.
`overlap + len(p) + 2 ≤ chunk_size`.  Then every buffer stays within
`chunk_size`, no empty buffer is ever closed, no overflow window is cut, and
every returned segment is non-blank after trimming. -/
theorem chunk_text_nonblank_of_fit (text : Str) (cs ov : Nat) (hov : ov < cs)
    (hfit : ∀ p ∈ paragraphs text, pyStrip p ≠ [] → ov + p.length + 2 ≤ cs) :
    ∀ s ∈ chunk_text text cs ov, pyStrip s ≠ [] := by
  intro s hs
  rcases List.mem_flatMap.mp hs with ⟨ck, hck, hw⟩
  have hck' : ck ∈ finishPass (chunkLoop cs ov (paragraphs text) [] []) := hck
  have hinv := chunkLoop_fit_inv cs ov (paragraphs text) [] [] hfit
    (by simp) (Or.inl rfl) (by simp) ck hck'
  unfold splitWindows at hw
  rw [if_pos hinv.2] at hw
  simp only [List.mem_singleton] at hw
  subst hw
  exact hinv.1

/-- Witness for `chunk_text_nonblank_of_fit` at the concrete input
`demoFit` with `chunk_size = 10`, `overlap = 2`. -/
theorem chunk_text_nonblank_of_fit_w :
    (2 : Nat) < 10
    ∧ (∀ p ∈ paragraphs demoFit, pyStrip p ≠ [] → 2 + p.length + 2 ≤ 10)
    ∧ ∀ s ∈ chunk_text demoFit 10 2, pyStrip s ≠ [] :=
  ⟨by decide, by decide,
    chunk_text_nonblank_of_fit demoFit 10 2 (by decide) (by decide)⟩

/-! ### Claim C4: overlap seeding of successive buffers -/

theorem chunkLoop_overlap_chain (cs ov : Nat) (ps : List Str) :
    ∀ chunks current,
      (current = [] → chunks = []) →
      List.Chain' (fun a b => a.drop (a.length - ov) <+: b) (chunks ++ [current]) →
      List.Chain' (fun a b => a.drop (a.length - ov) <+: b)
        ((chunkLoop cs ov ps chunks current).1
          ++ [(chunkLoop cs ov ps chunks current).2]) := by
  induction ps with
  | nil => intro chunks current _ h; simpa [chunkLoop] using h
  | cons p ps ih =>
    intro chunks current hemp hch
    rw [chunkLoop_cons]
    by_cases h1 : pyStrip p = []
    · rw [if_pos h1]; exact ih chunks current hemp hch
    · rw [if_neg h1]
      have hpne : p ≠ [] := ne_nil_of_pyStrip_ne_nil h1
      by_cases h2 : current.length + p.length + 2 ≤ cs
      · rw [if_pos h2]
        by_cases hc0 : current = []
        · rw [if_pos hc0]
          have hchn : chunks = [] := hemp hc0
          refine ih chunks p (fun hp0 => absurd hp0 hpne) ?_
          rw [hchn]
          simp
        · rw [if_neg hc0]
          refine ih chunks _
            (fun h => by simp [nl2] at h) ?_
          rcases List.chain'_append.mp hch with ⟨hc1, -, hlast⟩
          refine List.chain'_append.mpr ⟨hc1, by simp, ?_⟩
          intro a ha y hy
          simp only [List.head?_cons, Option.mem_def, Option.some.injEq] at hy
          subst hy
          exact prefix_ext p (prefix_ext nl2 (hlast a ha current (by simp)))
      · rw [if_neg h2]
        refine ih (chunks ++ [current]) _ (fun h => ?_) ?_
        · exfalso
          by_cases hov : 0 < ov
          · rw [if_pos hov] at h; simp [nl2] at h
          · rw [if_neg hov] at h; exact hpne h
        refine List.chain'_append.mpr
          ⟨hch, by simp, ?_⟩
        intro a ha y hy
        simp only [List.head?_cons, Option.mem_def, Option.some.injEq] at hy
        subst hy
        have hlastc : (chunks ++ [current]).getLast? = some current :=
          List.getLast?_concat _
        rw [hlastc] at ha
        simp only [Option.mem_def, Option.some.injEq] at ha
        rw [ha]
        by_cases hov : 0 < ov
        · rw [if_pos hov]
          exact prefix_ext p (prefix_ext nl2 (List.prefix_refl _))
        · rw [if_neg hov]
          have hdl : a.length - ov = a.length := by omega
          rw [hdl, List.drop_length]
          exact List.nil_prefix

/-- C4: whenever a paragraph would overflow the running buffer and
`overlap > 0`, the buffer is closed as one segment and the new buffer is
seeded with exactly the last `overlap` characters of the closed buffer, a
`"\n\n"` separator, and the overflowing paragraph; the seed is a suffix of
the closed buffer of length `min overlap (length)` and a prefix of the new
buffer, so along the whole greedy pass each closed buffer's successor begins
with the final `min(overlap, length)` characters of that buffer. -/
theorem chunk_overlap_seed (cs ov : Nat) (hov : 0 < ov) :
    (∀ (ps chunks : List Str) (current p : Str), pyStrip p ≠ [] →
        ¬ (current.length + p.length + 2 ≤ cs) →
        chunkLoop cs ov (p :: ps) chunks current
          = chunkLoop cs ov ps (chunks ++ [current])
              (current.drop (current.length - ov) ++ nl2 ++ p)
        ∧ (current.drop (current.length - ov)).length = min ov current.length
        ∧ current.drop (current.length - ov) <:+ current
        ∧ current.drop (current.length - ov)
            <+: current.drop (current.length - ov) ++ nl2 ++ p)
    ∧ ∀ text : Str, List.Chain' (fun a b => a.drop (a.length - ov) <+: b)
        (chunksPass1 text cs ov) := by
  constructor
  · intro ps chunks current p hp h2
    refine ⟨?_, ?_, ?_, ?_⟩
    · rw [chunkLoop_cons, if_neg hp, if_neg h2, if_pos hov]
    · rw [List.length_drop]; omega
    · exact List.drop_suffix _ _
    · exact prefix_ext _ (prefix_ext _ (List.prefix_refl _))
  · intro text
    have h := chunkLoop_overlap_chain cs ov (paragraphs text) [] []
      (fun _ => rfl) (by simp)
    unfold chunksPass1 finishPass
    by_cases hb : pyStrip (chunkLoop cs ov (paragraphs text) [] []).2 = []
    · rw [if_pos hb]
      exact (List.chain'_append.mp h).1
    · rw [if_neg hb]
      exact h

/-- Witness for `chunk_overlap_seed`: with `chunk_size = 6`, `overlap = 2`,
buffer `"abcd"` and overflowing paragraph `"ee"`, the loop closes the buffer
and reseeds with `"cd" ++ "\n\n" ++ "ee"`, and the chain property holds for
`demoText`. -/
theorem chunk_overlap_seed_w :
    ((['a', 'b', 'c', 'd'] : Str).drop ((['a', 'b', 'c', 'd'] : Str).length - 2)).length
        = min 2 (['a', 'b', 'c', 'd'] : Str).length
    ∧ chunkLoop 6 2 [['e', 'e']] [] ['a', 'b', 'c', 'd']
        = chunkLoop 6 2 [] ([] ++ [['a', 'b', 'c', 'd']])
            ((['a', 'b', 'c', 'd'] : Str).drop
              ((['a', 'b', 'c', 'd'] : Str).length - 2) ++ nl2 ++ ['e', 'e'])
    ∧ List.Chain' (fun a b => a.drop (a.length - 2) <+: b)
        (chunksPass1 demoText 6 2) := by
  have h := chunk_overlap_seed 6 2 (by decide)
  have h1 := h.1 [] [] ['a', 'b', 'c', 'd'] ['e', 'e'] (by decide) (by decide)
  exact ⟨h1.2.1, h1.1, h.2 demoText⟩

/-! ### Claim C5: the Segment Summarizer's degraded fallback -/

/-- C5: for every ordered sequence of segments the summarizer stage produces
exactly one summary per segment in the same index order (the stage is a map
over the segment list, hence length- and order-preserving), it never raises
— every oracle outcome, including failure, yields a summary — and on an
external-call failure the summary at index `i` equals the first 10 lines of
that segment's raw content, verbatim, joined by newlines. -/
theorem summarizer_fallback_per_segment (call : Str → Option Str)
    (chunks : List Str) :
    (summarize_all call chunks).length = chunks.length ∧
    ∀ (i : Nat) (ck : Str), chunks[i]? = some ck → call ck = none →
      (summarize_all call chunks)[i]?
        = some (joinSep ['\n'] ((pySplitlines ck).take 10)) := by
  refine ⟨by simp [summarize_all], ?_⟩
  intro i ck hich hf
  rw [summarize_all, List.getElem?_map, hich]
  simp [extract_keypoints_from_chunk, hf]

/-- Witness for `summarizer_fallback_per_segment` with the always-failing
oracle on the two concrete segments `"a"` and `"b\nc"`. -/
theorem summarizer_fallback_per_segment_w :
    (summarize_all failingCall [['a'], ['b', '\n', 'c']]).length
        = ([['a'], ['b', '\n', 'c']] : List Str).length
    ∧ (summarize_all failingCall [['a'], ['b', '\n', 'c']])[1]?
        = some (joinSep ['\n'] ((pySplitlines ['b', '\n', 'c']).take 10)) :=
  ⟨(summarizer_fallback_per_segment failingCall [['a'], ['b', '\n', 'c']]).1,
    (summarizer_fallback_per_segment failingCall [['a'], ['b', '\n', 'c']]).2
      1 ['b', '\n', 'c'] (by decide) rfl⟩

/-! ### Claim C6: the Synthesizer's degraded fallback (corrected) -/

/-- C6 counterexample: the claim states that on external-call failure the
Synthesizer returns the plain concatenation of the first 10 Segment
Summaries, but line 215 of `src/main.py` computes
`"\n".join(all_chunk_points[:10])`: on input `["a", "b"]` the result is
`"a\nb"`, not the concatenation `"ab"`. -/
theorem synthesize_fallback_cex :
    synthesize_keypoints failingCall [['a'], ['b']] = ['a', '\n', 'b']
    ∧ synthesize_keypoints failingCall [['a'], ['b']] ≠ ['a'] ++ ['b'] := by
  decide

/-- C6 amended: the Synthesizer never propagates an external-call failure —
every oracle outcome yields a result — and on failure it returns the first
10 Segment Summaries, in order, joined by newline characters (not plainly
concatenated). -/
theorem synthesize_fallback_join (call : Str → Option Str)
    (points : List Str)
    (hf : call (joinSep ['\n'] points) = none) :
    synthesize_keypoints call points = joinSep ['\n'] (points.take 10) := by
  rw [synthesize_keypoints, hf]

/-- Witness for `synthesize_fallback_join` with the always-failing oracle on
two concrete summaries. -/
theorem synthesize_fallback_join_w :
    synthesize_keypoints failingCall [['a'], ['b']]
      = joinSep ['\n'] (([['a'], ['b']] : List Str).take 10) :=
  synthesize_fallback_join failingCall [['a'], ['b']] rfl

/-! ### Claim C8: short Synthesis Results are delivered whole -/

/-- C8: a Synthesis Result shorter than 2000 characters yields exactly one
Delivery Part, equal to the whole result.  (The orchestrator sends it inside
one message prefixed by a fixed completion notice, line 256 of
`src/main.py`.) -/
theorem delivery_single_part (final : Str) (h : final.length < 2000) :
    split_for_delivery final = [final] := by
  rw [split_for_delivery, if_pos h]

/-- Witness for `delivery_single_part` at the concrete result `"short"`. -/
theorem delivery_single_part_w :
    (['s', 'h', 'o', 'r', 't'] : Str).length < 2000
    ∧ split_for_delivery ['s', 'h', 'o', 'r', 't']
        = [['s', 'h', 'o', 'r', 't']] :=
  ⟨by decide, delivery_single_part _ (by decide)⟩

/-! ### Claim C9: empty or near-empty extractions end the run at once -/

/-- C9: when the extracted Document Text is empty or shorter than the
50-character minimum, the orchestrator transitions directly to the
no-extractable-text error outcome: the returned stage list is empty — in
particular `chunk_text` and every later stage are never invoked — and the
outcome is the error notice of line 236 of `src/main.py`. -/
theorem orchestrator_short_text_errors (call : Str → Option Str) (text : Str)
    (h : text.length < 50) :
    process_document_link_and_send call text
      = ([], PipelineResult.noText) := by
  have hs : (pyStrip text).length < 50 :=
    lt_of_le_of_lt (pyStrip_length_le text) h
  rw [process_document_link_and_send, if_pos (Or.inr hs)]

/-- Witness for `orchestrator_short_text_errors` at the empty Document
Text. -/
theorem orchestrator_short_text_errors_w :
    ([] : Str).length < 50
    ∧ process_document_link_and_send failingCall []
        = ([], PipelineResult.noText) :=
  ⟨by decide, orchestrator_short_text_errors failingCall [] (by decide)⟩

/-! ### Claim C10: CRLF line endings become paragraph boundaries -/

theorem crlf_paragraphs_aux (ls : List Str) : ∀ l : Str,
    (∀ x ∈ l :: ls, ∀ c ∈ x, c ≠ '\n' ∧ c ≠ '\r') →
    paragraphs (joinSep ['\r', '\n'] (l :: ls)) = l :: ls := by
  induction ls with
  | nil =>
    intro l h1
    show paragraphs (joinSep ['\r', '\n'] [l]) = [l]
    rw [show joinSep ['\r', '\n'] [l] = l from rfl]
    unfold paragraphs
    rw [normalize_no_cr (fun c hc => (h1 l (by simp) c hc).2)]
    exact splitNN_no_nl (fun c hc => (h1 l (by simp) c hc).1)
  | cons l2 ls2 ih =>
    intro l h1
    rw [joinSep_cons _ _ (List.cons_ne_nil _ _)]
    unfold paragraphs
    rw [normalize_append, normalize_append,
      normalize_no_cr (fun c hc => (h1 l (by simp) c hc).2),
      show normalize ['\r', '\n'] = ['\n', '\n'] from rfl,
      List.append_assoc,
      show ((['\n', '\n'] : Str) ++ normalize (joinSep ['\r', '\n'] (l2 :: ls2)))
        = '\n' :: '\n' :: normalize (joinSep ['\r', '\n'] (l2 :: ls2)) from rfl,
      splitNN_cut _ (fun c hc => (h1 l (by simp) c hc).1)]
    have hrec := ih l2 (fun x hx => h1 x (by simp at hx ⊢; tauto))
    unfold paragraphs at hrec
    rw [hrec]

/-- C10 (implicit): `chunk_text` replaces every `"\r"` by `"\n"` before
splitting on `"\n\n"`, so each single CRLF line break becomes a blank-line
paragraph boundary: the paragraphs of a CRLF-joined document whose lines
contain no newline or carriage-return characters are exactly its lines, each
line segmented as its own paragraph. -/
theorem crlf_paragraph_boundary (lines : List Str) (h0 : lines ≠ [])
    (h1 : ∀ l ∈ lines, ∀ c ∈ l, c ≠ '\n' ∧ c ≠ '\r') :
    paragraphs (joinSep ['\r', '\n'] lines) = lines := by
  cases lines with
  | nil => exact absurd rfl h0
  | cons l ls => exact crlf_paragraphs_aux ls l h1

/-- Witness for `crlf_paragraph_boundary` on the concrete CRLF document
`"ab\r\nc"`. -/
theorem crlf_paragraph_boundary_w :
    ([['a', 'b'], ['c']] : List Str) ≠ []
    ∧ (∀ l ∈ ([['a', 'b'], ['c']] : List Str), ∀ c ∈ l, c ≠ '\n' ∧ c ≠ '\r')
    ∧ paragraphs (joinSep ['\r', '\n'] [['a', 'b'], ['c']]) = [['a', 'b'], ['c']] :=
  ⟨by decide, by decide,
    crlf_paragraph_boundary [['a', 'b'], ['c']] (by decide) (by decide)⟩

/-! ### Claim C7: Delivery Splitter reconstruction (refuted, then amended) -/

theorem greedyLoop_cons (p : Str) (ps out : List Str) (cur : Str) :
    greedyLoop (p :: ps) out cur
      = if cur.length + p.length + 2 ≤ 1800 then
          greedyLoop ps out (if cur = [] then p else cur ++ nl2 ++ p)
        else greedyLoop ps (out ++ [cur]) p := rfl

theorem greedy_join (ps : List Str) : ∀ (out : List Str) (cur : Str),
    (∀ p ∈ ps, p ≠ []) →
    joinSep nl2 ((finishParts (greedyLoop ps out cur)).filter (fun p => !p.isEmpty))
      = joinSep nl2 ((out.filter (fun p => !p.isEmpty))
          ++ (if cur = [] then [] else [cur]) ++ ps) := by
  induction ps with
  | nil =>
    intro out cur _
    unfold finishParts
    by_cases hc : cur = []
    · rw [show (greedyLoop [] out cur).2 = cur from rfl, if_pos hc, if_pos hc]
      simp [greedyLoop]
    · rw [show (greedyLoop [] out cur).2 = cur from rfl, if_neg hc, if_neg hc]
      show joinSep nl2 (((greedyLoop [] out cur).1 ++ [cur]).filter _) = _
      rw [show (greedyLoop [] out cur).1 = out from rfl, List.filter_append]
      have hie : cur.isEmpty = false := by
        rw [Bool.eq_false_iff]; intro hb; exact hc (List.isEmpty_iff.mp hb)
      have hone : ([cur] : List Str).filter (fun p => !p.isEmpty) = [cur] := by
        simp [List.filter, hie]
      rw [hone]
      simp
  | cons p ps ih =>
    intro out cur hps
    have hp : p ≠ [] := hps p (by simp)
    rw [greedyLoop_cons]
    by_cases h1 : cur.length + p.length + 2 ≤ 1800
    · rw [if_pos h1]
      by_cases hc : cur = []
      · rw [if_pos hc, ih out p (fun q hq => hps q (by simp [hq])),
          if_neg hp, if_pos hc]
        simp
      · rw [if_neg hc, ih out _ (fun q hq => hps q (by simp [hq])),
          if_neg (show cur ++ nl2 ++ p ≠ [] by simp [nl2]), if_neg hc]
        have hm := joinSep_merge (out.filter fun p => !p.isEmpty) cur p ps
        simpa using hm
    · rw [if_neg h1, ih (out ++ [cur]) p (fun q hq => hps q (by simp [hq])),
        if_neg hp, List.filter_append]
      by_cases hc : cur = []
      · subst hc
        rw [if_pos rfl]
        simp [List.filter]
      · rw [if_neg hc]
        have hie : cur.isEmpty = false := by
          rw [Bool.eq_false_iff]; intro hb; exact hc (List.isEmpty_iff.mp hb)
        have hone : ([cur] : List Str).filter (fun p => !p.isEmpty) = [cur] := by
          simp [List.filter, hie]
        rw [hone]
        simp [List.append_assoc]

theorem greedy_nonblank (ps : List Str) : ∀ (out : List Str) (cur : Str),
    (∀ p ∈ ps, pyStrip p ≠ []) →
    (∀ q ∈ out, q ≠ [] → pyStrip q ≠ []) →
    (cur ≠ [] → pyStrip cur ≠ []) →
    ∀ q ∈ finishParts (greedyLoop ps out cur), q ≠ [] → pyStrip q ≠ [] := by
  induction ps with
  | nil =>
    intro out cur _ hout hcur q hq hqne
    unfold finishParts at hq
    rw [show (greedyLoop [] out cur).2 = cur from rfl,
      show (greedyLoop [] out cur).1 = out from rfl] at hq
    by_cases hc : cur = []
    · rw [if_pos hc] at hq; exact hout q hq hqne
    · rw [if_neg hc] at hq
      rcases List.mem_append.mp hq with h | h
      · exact hout q h hqne
      · simp only [List.mem_singleton] at h; subst h; exact hcur hc
  | cons p ps ih =>
    intro out cur hps hout hcur
    have hp := hps p (by simp)
    rw [greedyLoop_cons]
    by_cases h1 : cur.length + p.length + 2 ≤ 1800
    · rw [if_pos h1]
      refine ih out _ (fun q hq => hps q (by simp [hq])) hout ?_
      intro _
      by_cases hc : cur = []
      · rw [if_pos hc]; exact hp
      · rw [if_neg hc]; exact pyStrip_ne_nil_append_right hp
    · rw [if_neg h1]
      refine ih (out ++ [cur]) p (fun q hq => hps q (by simp [hq]))
        ?_ (fun _ => hp)
      intro q hq hqne
      rcases List.mem_append.mp hq with h | h
      · exact hout q h hqne
      · simp only [List.mem_singleton] at h; subst h
        exact hcur hqne

theorem greedy_one_empty (ps : List Str) : ∀ (out : List Str) (cur : Str),
    (∀ p ∈ ps, p ≠ []) →
    (cur = [] → out.filter (fun p => p.isEmpty) = []) →
    (out.filter (fun p => p.isEmpty)).length ≤ 1 →
    ((finishParts (greedyLoop ps out cur)).filter (fun p => p.isEmpty)).length
      ≤ 1 := by
  induction ps with
  | nil =>
    intro out cur _ hemp hlen
    unfold finishParts
    rw [show (greedyLoop [] out cur).2 = cur from rfl,
      show (greedyLoop [] out cur).1 = out from rfl]
    by_cases hc : cur = []
    · rw [if_pos hc]; exact hlen
    · rw [if_neg hc, List.filter_append]
      have hie : cur.isEmpty = false := by
        rw [Bool.eq_false_iff]; intro hb; exact hc (List.isEmpty_iff.mp hb)
      have hone : ([cur] : List Str).filter (fun p => p.isEmpty) = [] := by
        simp [List.filter, hie]
      rw [hone]
      simpa using hlen
  | cons p ps ih =>
    intro out cur hps hemp hlen
    have hp : p ≠ [] := hps p (by simp)
    rw [greedyLoop_cons]
    by_cases h1 : cur.length + p.length + 2 ≤ 1800
    · rw [if_pos h1]
      refine ih out _ (fun q hq => hps q (by simp [hq])) ?_ hlen
      intro hne
      exfalso
      by_cases hc : cur = []
      · rw [if_pos hc] at hne; exact hp hne
      · rw [if_neg hc] at hne; simp [nl2] at hne
    · rw [if_neg h1]
      refine ih (out ++ [cur]) p (fun q hq => hps q (by simp [hq]))
        (fun hp0 => absurd hp0 hp) ?_
      rw [List.filter_append]
      by_cases hc : cur = []
      · rw [hemp hc]
        subst hc
        simp [List.filter]
      · have hie : cur.isEmpty = false := by
          rw [Bool.eq_false_iff]; intro hb; exact hc (List.isEmpty_iff.mp hb)
        have hone : ([cur] : List Str).filter (fun p => p.isEmpty) = [] := by
          simp [List.filter, hie]
        rw [hone]
        simpa using hlen

theorem sendSlices_flatten (t : Str) : (sendSlices t).flatten = t := by
  induction t using sendSlices.induct with
  | case1 => rw [sendSlices, dif_pos rfl]; rfl
  | case2 t ht ih =>
    rw [sendSlices, dif_neg ht]
    simp only [List.flatten_cons, ih]
    exact List.take_append_drop 3000 t

theorem sendSlices_ne_nil (t : Str) : ∀ q ∈ sendSlices t, q ≠ [] := by
  induction t using sendSlices.induct with
  | case1 => intro q hq; rw [sendSlices, dif_pos rfl] at hq; simp at hq
  | case2 t ht ih =>
    intro q hq
    rw [sendSlices, dif_neg ht] at hq
    rcases List.mem_cons.mp hq with rfl | h
    · intro h0
      rcases List.take_eq_nil_iff.mp h0 with h3 | h3
      · norm_num at h3
      · exact ht h3
    · exact ih q h

theorem cexFinal_length : cexFinal.length = 2006 := by
  simp [cexFinal, nl2]

theorem cexFinal_shape :
    cexFinal = List.replicate 2000 'a'
      ++ '\n' :: '\n' :: ([' '] ++ '\n' :: '\n' :: ['b']) := by
  simp [cexFinal, nl2]

theorem splitNN_cexFinal :
    splitNN cexFinal = [List.replicate 2000 'a', [' '], ['b']] := by
  rw [cexFinal_shape,
    splitNN_cut _ (fun ch hch => by rw [List.eq_of_mem_replicate hch]; decide),
    splitNN_cut ['b'] (fun ch hch => by simp at hch; subst hch; decide),
    splitNN_no_nl (l := ['b']) (fun ch hch => by simp at hch; subst hch; decide)]

theorem nonblankParas_cexFinal :
    nonblankParas cexFinal = [List.replicate 2000 'a', ['b']] := by
  have hrep : pyStrip (List.replicate 2000 'a') ≠ [] :=
    pyStrip_ne_nil_of_mem (List.mem_replicate.mpr ⟨by norm_num, rfl⟩)
      (by decide)
  have h1 : (pyStrip (List.replicate 2000 'a')).isEmpty = false := by
    rw [Bool.eq_false_iff]
    intro hb
    exact hrep (List.isEmpty_iff.mp hb)
  rw [nonblankParas, splitNN_cexFinal]
  simp only [List.filter_cons, List.filter_nil, h1, Bool.not_false, if_true,
    show (pyStrip ([' '] : Str)).isEmpty = true from by decide,
    show (pyStrip (['b'] : Str)).isEmpty = false from by decide,
    Bool.not_true, if_false]
  simp

theorem split_for_delivery_cexFinal :
    split_for_delivery cexFinal = [[], List.replicate 2000 'a', ['b']] := by
  have hnn : nl2 <:+: cexFinal :=
    ⟨List.replicate 2000 'a', [' '] ++ nl2 ++ ['b'], by simp [cexFinal]⟩
  rw [split_for_delivery, if_neg (by rw [cexFinal_length]; norm_num),
    if_pos (Or.inr (Or.inr hnn)), nonblankParas_cexFinal, recombineParts,
    greedyLoop_cons, if_neg (by simp), greedyLoop_cons, if_neg (by simp)]
  rfl

/-- C7 counterexample: on the 2006-character Synthesis Result `cexFinal`
(a 2000-character paragraph, a blank paragraph `" "`, and `"b"`), the
Delivery Splitter returns `["", "a"*2000, "b"]`: an empty part is returned,
and neither the plain concatenation of the parts nor their double-newline
rejoin reconstructs the result — the blank paragraph was discarded and an
empty part was emitted when the first paragraph overflowed the 1800-character
buffer. -/
theorem delivery_split_cex :
    2000 ≤ cexFinal.length
    ∧ [] ∈ split_for_delivery cexFinal
    ∧ (split_for_delivery cexFinal).flatten ≠ cexFinal
    ∧ joinSep nl2 (split_for_delivery cexFinal) ≠ cexFinal := by
  refine ⟨by rw [cexFinal_length]; norm_num, ?_, ?_, ?_⟩
  · rw [split_for_delivery_cexFinal]; simp
  · rw [split_for_delivery_cexFinal]
    intro h
    have := congrArg List.length h
    rw [cexFinal_length] at this
    simp at this
  · rw [split_for_delivery_cexFinal]
    intro h
    have := congrArg List.length h
    rw [cexFinal_length] at this
    rw [show joinSep nl2 [[], List.replicate 2000 'a', ['b']]
        = [] ++ nl2 ++ (List.replicate 2000 'a' ++ nl2 ++ ['b']) from rfl]
      at this
    simp [nl2] at this

/-- C7 amended: the claim as stated is refuted by `delivery_split_cex`.
What holds for a Synthesis Result of length at least 2000 is: (a) when it
contains none of `"Chapter"`, `"CHAPTER"`, or a double newline, the parts
are fixed 3000-character slices — none empty, and their concatenation
reconstructs the result exactly; (b) otherwise the parts are the greedy
1800-character recombination of the result's non-blank paragraphs — the
non-empty parts, rejoined with double newlines, reconstruct the
double-newline join of the non-blank paragraphs (so reconstruction is exact
only up to discarding blank paragraphs), at most one part is empty, and
every non-empty part is non-blank. -/
theorem delivery_split_reconstruction (final : Str)
    (h2000 : 2000 ≤ final.length) :
    (¬ (chapterStr <:+: final ∨ chapterUp <:+: final ∨ nl2 <:+: final) →
      (split_for_delivery final).flatten = final
      ∧ ∀ q ∈ split_for_delivery final, q ≠ [])
    ∧ ((chapterStr <:+: final ∨ chapterUp <:+: final ∨ nl2 <:+: final) →
      joinSep nl2 ((split_for_delivery final).filter (fun p => !p.isEmpty))
          = joinSep nl2 (nonblankParas final)
      ∧ ((split_for_delivery final).filter (fun p => p.isEmpty)).length ≤ 1
      ∧ ∀ q ∈ split_for_delivery final, q ≠ [] → pyStrip q ≠ []) := by
  constructor
  · intro hcond
    rw [split_for_delivery, if_neg (by omega), if_neg hcond]
    exact ⟨sendSlices_flatten final, sendSlices_ne_nil final⟩
  · intro hcond
    rw [split_for_delivery, if_neg (by omega), if_pos hcond]
    have hnb : ∀ p ∈ nonblankParas final, pyStrip p ≠ [] := by
      intro p hp
      rcases List.mem_filter.mp hp with ⟨-, hb⟩
      intro h0
      rw [h0] at hb
      simp at hb
    have hne : ∀ p ∈ nonblankParas final, p ≠ [] :=
      fun p hp => ne_nil_of_pyStrip_ne_nil (hnb p hp)
    refine ⟨?_, ?_, ?_⟩
    · have hj := greedy_join (nonblankParas final) [] [] hne
      simpa [recombineParts] using hj
    · exact greedy_one_empty (nonblankParas final) [] [] hne
        (fun _ => rfl) (by simp)
    · exact greedy_nonblank (nonblankParas final) [] [] hnb
        (by simp) (fun h => absurd rfl h)

/-- Witness for `delivery_split_reconstruction` at the concrete 2006-character
result `cexFinal`. -/
theorem delivery_split_reconstruction_w :
    2000 ≤ cexFinal.length
    ∧ ((¬ (chapterStr <:+: cexFinal ∨ chapterUp <:+: cexFinal
            ∨ nl2 <:+: cexFinal) →
        (split_for_delivery cexFinal).flatten = cexFinal
        ∧ ∀ q ∈ split_for_delivery cexFinal, q ≠ [])
      ∧ ((chapterStr <:+: cexFinal ∨ chapterUp <:+: cexFinal
            ∨ nl2 <:+: cexFinal) →
        joinSep nl2 ((split_for_delivery cexFinal).filter (fun p => !p.isEmpty))
            = joinSep nl2 (nonblankParas cexFinal)
        ∧ ((split_for_delivery cexFinal).filter (fun p => p.isEmpty)).length ≤ 1
        ∧ ∀ q ∈ split_for_delivery cexFinal, q ≠ [] → pyStrip q ≠ [])) :=
  ⟨by rw [cexFinal_length]; norm_num,
    delivery_split_reconstruction cexFinal (by rw [cexFinal_length]; norm_num)⟩

end StudyAssistant
